import Mathlib

/-!
Verification of the address-space layout manager from
`src/libmesosphere/source/kern_k_memory_layout.cpp` (Atmosphere-libs).

The memory block tree is embedded as a sorted list of blocks; machine
(`uintptr_t` / `size_t`) arithmetic is modelled as natural numbers with
explicit reduction modulo `2^64` (`wadd` / `wsub`) at every point where the
C++ code performs wrapping addition or subtraction.  The type-derivation
relation `CanDerive`, which lives in a header that is not part of the
sources, is abstracted as an explicit boolean-relation parameter.
-/

namespace AmsKern

/-- Width of the machine address space: `2^64`, the modulus of `uintptr_t`
arithmetic on the target platform. -/
def W : Nat := 18446744073709551616

/-- Modelled from the spec: the "no pair address" sentinel is
`std::numeric_limits of uintptr_t ::max()`, that is `2^64 - 1`. -/
def sentinel : Nat := W - 1

/-- Wrapping 64-bit addition, the semantics of `+` on `uintptr_t`. -/
def wadd (a b : Nat) : Nat := (a + b) % W

/-- Wrapping 64-bit subtraction, the semantics of `-` on `uintptr_t`. -/
def wsub (a b : Nat) : Nat := (a + (W - b % W)) % W

theorem W_pos : 0 < W := by norm_num [W]

theorem wadd_eq_of_lt {a b : Nat} (h : a + b < W) : wadd a b = a + b :=
  Nat.mod_eq_of_lt h

theorem wsub_eq_of_le {a b : Nat} (hb : b ≤ a) (ha : a < W) : wsub a b = a - b := by
  have hbW : b < W := lt_of_le_of_lt hb ha
  have h1 : b % W = b := Nat.mod_eq_of_lt hbW
  have h2 : a + (W - b) = W + (a - b) := by omega
  have h3 : (a - b) < W := lt_of_le_of_lt (Nat.sub_le a b) ha
  simp [wsub, h1, h2, Nat.add_mod_left, Nat.mod_eq_of_lt h3]

/-- The C++ idiom `x + y - 1` (compute an inclusive last address) evaluated
with wrapping arithmetic agrees with the natural-number value whenever
`0 < x + y ≤ 2^64`. -/
theorem wlast_eq {a b : Nat} (h0 : 0 < a + b) (h1 : a + b ≤ W) :
    wsub (wadd a b) 1 = a + b - 1 := by
  rcases Nat.lt_or_ge (a + b) W with h | h
  · rw [wadd_eq_of_lt h, wsub_eq_of_le h0 h]
  · have hW : a + b = W := le_antisymm h1 h
    have : wadd a b = 0 := by simp [wadd, hW]
    rw [this]
    have h1W : (1 : Nat) % W = 1 := by norm_num [W]
    have hWW : (W - 1) % W = W - 1 := Nat.mod_eq_of_lt (by omega)
    simp [wsub, h1W, hWW]
    omega

/-- Subtracting `c` from the wrapped sum `wadd a b` recovers the
natural-number difference whenever `0 < c ≤ a + b ≤ 2^64` and `c < 2^64`. -/
theorem wsub_wadd_eq {a b c : Nat} (h0 : 0 < c) (hc : c < W) (h1 : c ≤ a + b)
    (h2 : a + b ≤ W) : wsub (wadd a b) c = a + b - c := by
  rcases Nat.lt_or_ge (a + b) W with h | h
  · rw [wadd_eq_of_lt h, wsub_eq_of_le h1 h]
  · have hW : a + b = W := le_antisymm h2 h
    have hz : wadd a b = 0 := by simp [wadd, hW]
    rw [hz]
    have hcW : c % W = c := Nat.mod_eq_of_lt hc
    simp only [wsub, hcW, Nat.zero_add]
    rw [Nat.mod_eq_of_lt (by omega)]
    omega

/-- Modelled from the spec: `util::AlignDown(x, a)` rounds `x` down to a
multiple of the (power-of-two) alignment `a`. -/
def alignDown (x a : Nat) : Nat := a * (x / a)

theorem alignDown_mod (x a : Nat) : alignDown x a % a = 0 := by
  simp [alignDown, Nat.mul_mod_right]

/-- A single memory block: `KMemoryBlock` carries an address, a byte size,
an optional pair address in the complementary address space (`sentinel`
when absent), an attribute bitmask and a region type id. -/
structure KMemoryBlock where
  address : Nat
  size : Nat
  pair_address : Nat
  attributes : Nat
  type_id : Nat
  deriving DecidableEq, Repr

namespace KMemoryBlock

/-- Modelled from the spec: `GetLastAddress()` is `address + size - 1`
(wrapping machine arithmetic). -/
def lastAddr (b : KMemoryBlock) : Nat := wsub (wadd b.address b.size) 1

end KMemoryBlock

/-- Modelled from the spec: `FindContainingBlock(a)` locates the block of
the tree whose interval contains the address `a`; the tree is kept in
address order, so this is the first block with
`address ≤ a ≤ lastAddr`. -/
def findContainingBlock (tree : List KMemoryBlock) (a : Nat) : Option KMemoryBlock :=
  tree.find? (fun b => decide (b.address ≤ a) && decide (a ≤ b.lastAddr))

/-- Modelled from the spec: the tree `insert` operation places a block at
its address-ordered position. -/
def treeInsert (p : KMemoryBlock) : List KMemoryBlock → List KMemoryBlock
  | [] => [p]
  | c :: cs => if p.address ≤ c.address then p :: c :: cs else c :: treeInsert p cs

/-- `KMemoryBlockTree::Insert(address, size, type_id, new_attr, old_attr)`
translated from the source.  The tree is a sorted block list; the result is
`none` when no block contains `address` (the C++ code would dereference an
invalid iterator there — the coverage invariant rules it out), and
otherwise `some (tree_after, returned_bool)`.  The `CanDerive` relation is
the explicit parameter `canDerive`. -/
def Insert (canDerive : Nat → Nat → Bool) (tree : List KMemoryBlock)
    (address size type_id new_attr old_attr : Nat) :
    Option (List KMemoryBlock × Bool) :=
  match findContainingBlock tree address with
  | none => none
  | some it =>
    -- We require that the old attr is correct.
    if it.attributes ≠ old_attr then some (tree, false)
    else
      -- We further require that the block can be split from the old block.
      let inserted_block_end := wadd address size
      let inserted_block_last := wsub inserted_block_end 1
      if it.lastAddr < inserted_block_last then some (tree, false)
      else
        -- Further, we require that the type id is a valid transformation.
        if ¬ canDerive it.type_id type_id then some (tree, false)
        else
          -- Cache information from the block before we remove it.
          let old_address := it.address
          let old_size := it.size
          let old_end := wadd old_address old_size
          let old_last := wsub old_end 1
          let old_pair := it.pair_address
          let old_type := it.type_id
          -- Erase the existing block from the tree.
          let t1 := tree.erase it
          -- If we need to insert a block before the region, do so.
          let t2 := if old_address ≠ address then
              treeInsert ⟨old_address, wsub address old_address, old_pair, old_attr, old_type⟩ t1
            else t1
          -- Insert a new block.
          let new_pair := if old_pair ≠ sentinel then wadd old_pair (wsub address old_address) else old_pair
          let t3 := treeInsert ⟨address, size, new_pair, new_attr, type_id⟩ t2
          -- If we need to insert a block after the region, do so.
          let t4 := if old_last ≠ inserted_block_last then
              treeInsert ⟨inserted_block_end, wsub old_end inserted_block_end,
                (if old_pair ≠ sentinel then wadd old_pair (wsub inserted_block_end old_address) else old_pair),
                old_attr, old_type⟩ t3
            else t3
          some (t4, true)

/-- `tilesB lo hi l` holds when the blocks of `l`, in list order, exactly
tile the governed address space `[lo, hi)`: each block starts where the
previous one ended, every block has positive size, and the last block ends
exactly at `hi` (no gaps, no overlaps). -/
def tilesB (lo hi : Nat) : List KMemoryBlock → Bool
  | [] => lo == hi
  | b :: bs => (b.address == lo) && (0 < b.size) && tilesB (lo + b.size) hi bs

theorem tilesB_le : ∀ {l : List KMemoryBlock} {lo hi : Nat}, tilesB lo hi l = true → lo ≤ hi := by
  intro l
  induction l with
  | nil =>
    intro lo hi h
    simp only [tilesB, beq_iff_eq] at h
    omega
  | cons b bs ih =>
    intro lo hi h
    simp only [tilesB, Bool.and_eq_true, beq_iff_eq, decide_eq_true_eq] at h
    obtain ⟨⟨hb, hs⟩, ht⟩ := h
    have := ih ht
    omega

theorem tilesB_bounds : ∀ {l : List KMemoryBlock} {lo hi : Nat}, tilesB lo hi l = true →
    ∀ c ∈ l, lo ≤ c.address ∧ c.address + c.size ≤ hi ∧ 0 < c.size := by
  intro l
  induction l with
  | nil => intro lo hi _ c hc; simp at hc
  | cons b bs ih =>
    intro lo hi h c hc
    simp only [tilesB, Bool.and_eq_true, beq_iff_eq, decide_eq_true_eq] at h
    obtain ⟨⟨hb, hs⟩, ht⟩ := h
    have hle := tilesB_le ht
    rcases List.mem_cons.mp hc with rfl | hc
    · exact ⟨by omega, by omega, hs⟩
    · have := ih ht c hc
      exact ⟨by omega, by omega, this.2.2⟩

theorem tilesB_append : ∀ {xs : List KMemoryBlock} {ys : List KMemoryBlock} {lo hi : Nat},
    tilesB lo hi (xs ++ ys) = true ↔ ∃ m, tilesB lo m xs = true ∧ tilesB m hi ys = true := by
  intro xs
  induction xs with
  | nil =>
    intro ys lo hi
    constructor
    · intro h
      exact ⟨lo, by simp [tilesB], h⟩
    · rintro ⟨m, hm, hy⟩
      simp only [tilesB, beq_iff_eq] at hm
      subst hm
      exact hy
  | cons b bs ih =>
    intro ys lo hi
    constructor
    · intro h
      simp only [List.cons_append, tilesB, Bool.and_eq_true, beq_iff_eq, decide_eq_true_eq] at h
      obtain ⟨⟨hb, hs⟩, ht⟩ := h
      obtain ⟨m, h1, h2⟩ := ih.mp ht
      exact ⟨m, by
        simp only [tilesB, Bool.and_eq_true, beq_iff_eq, decide_eq_true_eq]
        exact ⟨⟨hb, hs⟩, h1⟩, h2⟩
    · rintro ⟨m, hm, hy⟩
      simp only [tilesB, Bool.and_eq_true, beq_iff_eq, decide_eq_true_eq] at hm
      obtain ⟨⟨hb, hs⟩, ht⟩ := hm
      simp only [List.cons_append, tilesB, Bool.and_eq_true, beq_iff_eq, decide_eq_true_eq]
      exact ⟨⟨hb, hs⟩, ih.mpr ⟨m, ht, hy⟩⟩

theorem find?_split {α : Type _} {p : α → Bool} {l : List α} {b : α}
    (h : l.find? p = some b) :
    ∃ xs ys, l = xs ++ b :: ys ∧ ∀ c ∈ xs, p c = false := by
  induction l with
  | nil => simp [List.find?] at h
  | cons a l ih =>
    by_cases hpa : p a = true
    · rw [List.find?_cons_of_pos _ hpa] at h
      obtain rfl : a = b := by injection h
      exact ⟨[], l, rfl, by simp⟩
    · rw [List.find?_cons_of_neg _ (by simpa using hpa)] at h
      obtain ⟨xs, ys, rfl, hxs⟩ := ih h
      refine ⟨a :: xs, ys, rfl, ?_⟩
      intro c hc
      rcases List.mem_cons.mp hc with rfl | hc
      · simpa using hpa
      · exact hxs c hc

theorem erase_middle {xs ys : List KMemoryBlock} {it : KMemoryBlock}
    (h : ∀ c ∈ xs, c ≠ it) : (xs ++ it :: ys).erase it = xs ++ ys := by
  induction xs with
  | nil => simp
  | cons x xs ih =>
    have hx : x ≠ it := h x (by simp)
    simp only [List.cons_append, List.erase_cons, beq_iff_eq, if_neg hx]
    rw [ih (fun c hc => h c (by simp [hc]))]

theorem treeInsert_middle {p : KMemoryBlock} :
    ∀ {u v : List KMemoryBlock},
      (∀ c ∈ u, c.address < p.address) → (∀ c ∈ v, p.address ≤ c.address) →
      treeInsert p (u ++ v) = u ++ p :: v := by
  intro u
  induction u with
  | nil =>
    intro ys h1 h2
    cases ys with
    | nil => rfl
    | cons c cs => simp [treeInsert, if_pos (h2 c (by simp))]
  | cons x xs ih =>
    intro ys h1 h2
    have hx : ¬ p.address ≤ x.address := not_le.mpr (h1 x (by simp))
    simp only [List.cons_append, treeInsert, if_neg hx, List.append_eq]
    rw [ih (fun c hc => h1 c (by simp [hc])) h2]

theorem mem_treeInsert {p c : KMemoryBlock} :
    ∀ {l : List KMemoryBlock}, c ∈ treeInsert p l ↔ c = p ∨ c ∈ l := by
  intro l
  induction l with
  | nil => simp [treeInsert]
  | cons x xs ih =>
    by_cases hx : p.address ≤ x.address
    · simp [treeInsert, if_pos hx]
    · simp only [treeInsert, if_neg hx, List.mem_cons, ih]
      tauto

/-- If `Insert` returns `false`, the returned tree is the input tree:
all three precondition checks happen before any mutation. -/
theorem Insert_false_unchanged {cd : Nat → Nat → Bool} {tree l' : List KMemoryBlock}
    {address size tid na oa : Nat}
    (h : Insert cd tree address size tid na oa = some (l', false)) : l' = tree := by
  cases hf : findContainingBlock tree address with
  | none => simp [Insert, hf] at h
  | some it =>
    simp only [Insert, hf] at h
    by_cases h1 : it.attributes = oa
    · rw [if_neg (not_not_intro h1)] at h
      by_cases h2 : it.lastAddr < wsub (wadd address size) 1
      · rw [if_pos h2] at h
        exact (congrArg Prod.fst (Option.some.inj h)).symm
      · rw [if_neg h2] at h
        by_cases h3 : cd it.type_id tid = true
        · rw [if_neg (by simp [h3])] at h
          simp at h
        · rw [if_pos (by simp [h3])] at h
          exact (congrArg Prod.fst (Option.some.inj h)).symm
    · rw [if_pos h1] at h
      exact (congrArg Prod.fst (Option.some.inj h)).symm

/-- Structure of the tree produced by a successful `Insert` on a tiled
tree: the containing block `it` is replaced, in place, by up to three
blocks — an optional before-remainder, the new block, and an optional
after-remainder — whose fields are exactly the ones the source computes. -/
theorem Insert_success_shape {cd : Nat → Nat → Bool} {tree l' : List KMemoryBlock}
    {lo hi address size tid na oa : Nat}
    (ht : tilesB lo hi tree = true) (hW : hi ≤ W) (hs : 0 < size)
    (hov : address + size ≤ W)
    (hins : Insert cd tree address size tid na oa = some (l', true)) :
    ∃ xs ys it, tree = xs ++ it :: ys ∧
      findContainingBlock tree address = some it ∧
      tilesB lo it.address xs = true ∧
      tilesB (it.address + it.size) hi ys = true ∧
      it.attributes = oa ∧
      it.address ≤ address ∧ address + size ≤ it.address + it.size ∧ 0 < it.size ∧
      l' = xs ++
        ((if it.address = address then [] else
            [⟨it.address, address - it.address, it.pair_address, oa, it.type_id⟩]) ++
          (⟨address, size,
            (if it.pair_address ≠ sentinel then wadd it.pair_address (address - it.address)
             else it.pair_address), na, tid⟩ : KMemoryBlock) ::
          (if it.address + it.size = address + size then [] else
            [⟨address + size, it.address + it.size - (address + size),
              (if it.pair_address ≠ sentinel then wadd it.pair_address (address + size - it.address)
               else it.pair_address), oa, it.type_id⟩])) ++ ys := by
  cases hf : findContainingBlock tree address with
  | none => simp [Insert, hf] at hins
  | some it =>
    have hf' : tree.find? (fun b => decide (b.address ≤ address) && decide (address ≤ b.lastAddr))
        = some it := hf
    obtain ⟨xs, ys, htree, hpre⟩ := find?_split hf'
    subst htree
    have hpredit := List.find?_some hf'
    simp only [Bool.and_eq_true, decide_eq_true_eq] at hpredit
    obtain ⟨hA_le, hlast_le⟩ := hpredit
    obtain ⟨m, htx, hty⟩ := tilesB_append.mp ht
    simp only [tilesB, Bool.and_eq_true, beq_iff_eq, decide_eq_true_eq] at hty
    obtain ⟨⟨hmA, hSpos⟩, htys⟩ := hty
    subst hmA
    have hAS_hi : it.address + it.size ≤ hi := tilesB_le htys
    have hAS_W : it.address + it.size ≤ W := le_trans hAS_hi hW
    have hlast' : wsub (wadd it.address it.size) 1 = it.address + it.size - 1 :=
      wlast_eq (by omega) hAS_W
    have hinslast : wsub (wadd address size) 1 = address + size - 1 :=
      wlast_eq (by omega) hov
    have haddr_lt : address < it.address + it.size := by
      have h := hlast_le
      simp only [KMemoryBlock.lastAddr] at h
      rw [hlast'] at h
      omega
    have hws : wsub address it.address = address - it.address :=
      wsub_eq_of_le hA_le (by omega)
    -- unfold Insert and peel the three precondition checks
    simp only [Insert, hf] at hins
    by_cases h1 : it.attributes = oa
    · rw [if_neg (not_not_intro h1)] at hins
      by_cases h2 : it.lastAddr < wsub (wadd address size) 1
      · rw [if_pos h2] at hins
        exact absurd hins (by simp)
      · rw [if_neg h2] at hins
        by_cases h3 : cd it.type_id tid = true
        · rw [if_neg (by simp [h3])] at hins
          have hfit : address + size ≤ it.address + it.size := by
            simp only [KMemoryBlock.lastAddr] at h2
            rw [hlast', hinslast] at h2
            omega
          have herase : (xs ++ it :: ys).erase it = xs ++ ys := by
            refine erase_middle ?_
            intro c hc hceq
            have hfalse := hpre c hc
            rw [hceq] at hfalse
            have htrue := List.find?_some hf'
            rw [hfalse] at htrue
            exact Bool.false_ne_true htrue
          have hxs_lt : ∀ c ∈ xs, c.address < it.address := by
            intro c hc
            have := tilesB_bounds htx c hc
            omega
          have hys_ge : ∀ c ∈ ys, it.address + it.size ≤ c.address := by
            intro c hc
            exact (tilesB_bounds htys c hc).1
          have hl' : l' = _ := (congrArg Prod.fst (Option.some.inj hins)).symm
          rw [herase, hws] at hl'
          refine ⟨xs, ys, it, rfl, rfl, htx, htys, h1, hA_le, hfit, hSpos, ?_⟩
          by_cases hA : it.address = address
          -- case: no before-remainder
          · rw [if_neg (not_not_intro hA)] at hl'
            rw [if_pos hA]
            by_cases hE : wsub (wadd it.address it.size) 1 = wsub (wadd address size) 1
            · have hEnat : it.address + it.size = address + size := by
                rw [hlast', hinslast] at hE
                omega
              rw [if_neg (not_not_intro hE)] at hl'
              rw [if_pos hEnat]
              rw [treeInsert_middle
                (p := ⟨address, size,
                  (if it.pair_address ≠ sentinel then wadd it.pair_address (address - it.address)
                   else it.pair_address), na, tid⟩) (u := xs) (v := ys)
                (by
                  intro c hc
                  show c.address < address
                  exact lt_of_lt_of_le (hxs_lt c hc) hA_le)
                (by
                  intro c hc
                  show address ≤ c.address
                  exact le_trans (le_of_lt haddr_lt) (hys_ge c hc))] at hl'
              simpa using hl'
            · have hEnat : ¬ it.address + it.size = address + size := by
                intro hcontra
                exact hE (by rw [hlast', hinslast, hcontra])
              have hlt : address + size < it.address + it.size := by omega
              have hltW : address + size < W := lt_of_lt_of_le hlt hAS_W
              have hwe : wadd address size = address + size := wadd_eq_of_lt hltW
              have hwafter : wsub (wadd it.address it.size) (wadd address size)
                  = it.address + it.size - (address + size) := by
                rw [hwe]
                exact wsub_wadd_eq (by omega) hltW (le_of_lt hlt) hAS_W
              have hwpair : wsub (wadd address size) it.address = address + size - it.address := by
                rw [hwe]
                exact wsub_eq_of_le (by omega) hltW
              rw [if_pos hE, hwafter, hwpair, hwe] at hl'
              rw [if_neg hEnat]
              rw [treeInsert_middle
                (p := ⟨address, size,
                  (if it.pair_address ≠ sentinel then wadd it.pair_address (address - it.address)
                   else it.pair_address), na, tid⟩) (u := xs) (v := ys)
                (by
                  intro c hc
                  show c.address < address
                  exact lt_of_lt_of_le (hxs_lt c hc) hA_le)
                (by
                  intro c hc
                  show address ≤ c.address
                  exact le_trans (le_of_lt haddr_lt) (hys_ge c hc))] at hl'
              have hstep := treeInsert_middle
                (p := ⟨address + size, it.address + it.size - (address + size),
                  (if it.pair_address ≠ sentinel then wadd it.pair_address (address + size - it.address)
                   else it.pair_address), oa, it.type_id⟩)
                (u := xs ++ [⟨address, size,
                  (if it.pair_address ≠ sentinel then wadd it.pair_address (address - it.address)
                   else it.pair_address), na, tid⟩]) (v := ys)
                (by
                  intro c hc
                  show c.address < address + size
                  rcases List.mem_append.mp hc with hc | hc
                  · exact lt_of_lt_of_le (hxs_lt c hc) (by omega)
                  · simp only [List.mem_singleton] at hc
                    subst hc
                    show address < address + size
                    omega)
                (by
                  intro c hc
                  show address + size ≤ c.address
                  exact le_trans hfit (hys_ge c hc))
              simp only [List.append_assoc, List.singleton_append] at hstep
              rw [hstep] at hl'
              simpa using hl'
          -- case: before-remainder present
          · rw [if_pos hA] at hl'
            rw [if_neg hA]
            have hA_lt : it.address < address := lt_of_le_of_ne hA_le (fun h => hA h)
            rw [treeInsert_middle
              (p := ⟨it.address, address - it.address, it.pair_address, oa, it.type_id⟩)
              (u := xs) (v := ys)
              (by
                intro c hc
                show c.address < it.address
                exact hxs_lt c hc)
              (by
                intro c hc
                show it.address ≤ c.address
                exact le_trans (by omega) (hys_ge c hc))] at hl'
            have hnew := treeInsert_middle
              (p := ⟨address, size,
                (if it.pair_address ≠ sentinel then wadd it.pair_address (address - it.address)
                 else it.pair_address), na, tid⟩)
              (u := xs ++ [⟨it.address, address - it.address, it.pair_address, oa, it.type_id⟩])
              (v := ys)
              (by
                intro c hc
                show c.address < address
                rcases List.mem_append.mp hc with hc | hc
                · exact lt_of_lt_of_le (hxs_lt c hc) hA_le
                · simp only [List.mem_singleton] at hc
                  subst hc
                  show it.address < address
                  exact hA_lt)
              (by
                intro c hc
                show address ≤ c.address
                exact le_trans (le_of_lt haddr_lt) (hys_ge c hc))
            simp only [List.append_assoc, List.singleton_append] at hnew
            rw [hnew] at hl'
            by_cases hE : wsub (wadd it.address it.size) 1 = wsub (wadd address size) 1
            · have hEnat : it.address + it.size = address + size := by
                rw [hlast', hinslast] at hE
                omega
              rw [if_neg (not_not_intro hE)] at hl'
              rw [if_pos hEnat]
              simpa using hl'
            · have hEnat : ¬ it.address + it.size = address + size := by
                intro hcontra
                exact hE (by rw [hlast', hinslast, hcontra])
              have hlt : address + size < it.address + it.size := by omega
              have hltW : address + size < W := lt_of_lt_of_le hlt hAS_W
              have hwe : wadd address size = address + size := wadd_eq_of_lt hltW
              have hwafter : wsub (wadd it.address it.size) (wadd address size)
                  = it.address + it.size - (address + size) := by
                rw [hwe]
                exact wsub_wadd_eq (by omega) hltW (le_of_lt hlt) hAS_W
              have hwpair : wsub (wadd address size) it.address = address + size - it.address := by
                rw [hwe]
                exact wsub_eq_of_le (by omega) hltW
              rw [if_pos hE, hwafter, hwpair, hwe] at hl'
              rw [if_neg hEnat]
              have hstep := treeInsert_middle
                (p := ⟨address + size, it.address + it.size - (address + size),
                  (if it.pair_address ≠ sentinel then wadd it.pair_address (address + size - it.address)
                   else it.pair_address), oa, it.type_id⟩)
                (u := xs ++ [⟨it.address, address - it.address, it.pair_address, oa, it.type_id⟩,
                  ⟨address, size,
                  (if it.pair_address ≠ sentinel then wadd it.pair_address (address - it.address)
                   else it.pair_address), na, tid⟩]) (v := ys)
                (by
                  intro c hc
                  show c.address < address + size
                  rcases List.mem_append.mp hc with hc | hc
                  · exact lt_of_lt_of_le (hxs_lt c hc) (by omega)
                  · simp only [List.mem_cons, List.mem_singleton, List.not_mem_nil, or_false] at hc
                    rcases hc with hc | hc
                    · subst hc
                      show it.address < address + size
                      omega
                    · subst hc
                      show address < address + size
                      omega)
                (by
                  intro c hc
                  show address + size ≤ c.address
                  exact le_trans hfit (hys_ge c hc))
              simp only [List.append_assoc, List.cons_append, List.singleton_append,
                List.nil_append] at hstep
              rw [hstep] at hl'
              simpa using hl'
        · rw [if_pos (by simp [h3])] at hins
          exact absurd hins (by simp)
    · rw [if_pos h1] at hins
      exact absurd hins (by simp)

theorem tilesB_nil_of_eq {lo hi : Nat} (h : lo = hi) :
    tilesB lo hi ([] : List KMemoryBlock) = true := by
  simp [tilesB, h]

theorem tilesB_cons_block {lo hi a s p q ty : Nat} {bs : List KMemoryBlock}
    (h1 : a = lo) (h2 : 0 < s) (h3 : tilesB (lo + s) hi bs = true) :
    tilesB lo hi ((⟨a, s, p, q, ty⟩ : KMemoryBlock) :: bs) = true := by
  subst h1
  simp only [tilesB, Bool.and_eq_true, beq_iff_eq, decide_eq_true_eq]
  exact ⟨⟨by simp, h2⟩, h3⟩

/-- The up-to-three replacement blocks of a successful `Insert` tile the
containing block interval exactly. -/
theorem mid_tilesB (it : KMemoryBlock) (address size na oa tid : Nat)
    (hA_le : it.address ≤ address) (hfit : address + size ≤ it.address + it.size)
    (hs : 0 < size) :
    tilesB it.address (it.address + it.size)
      ((if it.address = address then [] else
          [⟨it.address, address - it.address, it.pair_address, oa, it.type_id⟩]) ++
        (⟨address, size,
          (if it.pair_address ≠ sentinel then wadd it.pair_address (address - it.address)
           else it.pair_address), na, tid⟩ : KMemoryBlock) ::
        (if it.address + it.size = address + size then [] else
          [⟨address + size, it.address + it.size - (address + size),
            (if it.pair_address ≠ sentinel then wadd it.pair_address (address + size - it.address)
             else it.pair_address), oa, it.type_id⟩])) = true := by
  by_cases hA : it.address = address <;>
    by_cases hE : it.address + it.size = address + size
  · rw [if_pos hA, if_pos hE, List.nil_append]
    exact tilesB_cons_block hA.symm hs (tilesB_nil_of_eq (by omega))
  · rw [if_pos hA, if_neg hE, List.nil_append]
    exact tilesB_cons_block hA.symm hs
      (tilesB_cons_block (by omega) (by omega) (tilesB_nil_of_eq (by omega)))
  · rw [if_neg hA, if_pos hE, List.singleton_append]
    exact tilesB_cons_block rfl (by omega)
      (tilesB_cons_block (by omega) hs (tilesB_nil_of_eq (by omega)))
  · rw [if_neg hA, if_neg hE, List.singleton_append]
    exact tilesB_cons_block rfl (by omega)
      (tilesB_cons_block (by omega) hs
        (tilesB_cons_block (by omega) (by omega) (tilesB_nil_of_eq (by omega))))

/-- `Insert` preserves the tiling invariant for calls with positive,
non-overflowing size, whatever boolean it returns. -/
theorem Insert_tilesB {cd : Nat → Nat → Bool} {tree l' : List KMemoryBlock} {r : Bool}
    {lo hi address size tid na oa : Nat}
    (ht : tilesB lo hi tree = true) (hW : hi ≤ W) (hs : 0 < size)
    (hov : address + size ≤ W)
    (hins : Insert cd tree address size tid na oa = some (l', r)) :
    tilesB lo hi l' = true := by
  cases r with
  | false =>
    have heq := Insert_false_unchanged hins
    subst heq
    exact ht
  | true =>
    obtain ⟨xs, ys, it, htree, hfind, htx, htys, hattr, hA_le, hfit, hSpos, hl'⟩ :=
      Insert_success_shape ht hW hs hov hins
    have hmid := mid_tilesB it address size na oa tid hA_le hfit hs
    have hps := tilesB_append.mpr ⟨it.address + it.size, hmid, htys⟩
    have hfull := tilesB_append.mpr ⟨it.address, htx, hps⟩
    rw [hl']
    simpa [List.append_assoc] using hfull

/-- Claim C1 counterexample: the claim fails as stated.  On the tree with
the single block `[0, 1000)` (which tiles `[0, 1000)`), the call
`Insert(500, 2^64 - 100, ...)` makes `address + size` wrap around: the
computed inclusive end `399` passes the containment check, `Insert` returns
`true`, and the resulting blocks (`[0,500)`, a block at `400` of size
`600`, and a block at `500` of wrapped size `2^64 - 100`) overlap and no
longer tile the governed space. -/
theorem c1_counterexample :
    tilesB 0 1000 [⟨0, 1000, sentinel, 0, 10⟩] = true ∧
    Insert (fun x y => x == y) [⟨0, 1000, sentinel, 0, 10⟩] 500 (W - 100) 10 5 0 =
      some ([⟨0, 500, sentinel, 0, 10⟩, ⟨400, 600, sentinel, 0, 10⟩,
        ⟨500, W - 100, sentinel, 5, 10⟩], true) ∧
    tilesB 0 1000 [⟨0, 500, sentinel, 0, 10⟩, ⟨400, 600, sentinel, 0, 10⟩,
      ⟨500, W - 100, sentinel, 5, 10⟩] = false :=
  ⟨by decide, by decide, by decide⟩

/-- Claim C1 (amended): for every call to `Insert` whose region has
positive size and does not overflow the address width
(`0 < size` and `address + size ≤ 2^64`), on a tree tiling the governed
space `[lo, hi)` the resulting tree still tiles exactly `[lo, hi)`,
whether `Insert` returns `true` or `false`; and on success the containing
block is replaced by at most three blocks exactly covering its interval. -/
theorem c1_theorem {cd : Nat → Nat → Bool} {tree l' : List KMemoryBlock} {r : Bool}
    {lo hi address size tid na oa : Nat}
    (ht : tilesB lo hi tree = true) (hW : hi ≤ W) (hs : 0 < size)
    (hov : address + size ≤ W)
    (hins : Insert cd tree address size tid na oa = some (l', r)) :
    tilesB lo hi l' = true ∧
    (r = true → ∃ xs ys it mid, tree = xs ++ it :: ys ∧ l' = xs ++ mid ++ ys ∧
      tilesB it.address (it.address + it.size) mid = true ∧ mid.length ≤ 3) := by
  refine ⟨Insert_tilesB ht hW hs hov hins, ?_⟩
  intro hr
  subst hr
  obtain ⟨xs, ys, it, htree, hfind, htx, htys, hattr, hA_le, hfit, hSpos, hl'⟩ :=
    Insert_success_shape ht hW hs hov hins
  refine ⟨xs, ys, it, _, htree, hl', mid_tilesB it address size na oa tid hA_le hfit hs, ?_⟩
  by_cases hA : it.address = address <;>
    by_cases hE : it.address + it.size = address + size
  · rw [if_pos hA, if_pos hE]
    simp
  · rw [if_pos hA, if_neg hE]
    simp
  · rw [if_neg hA, if_pos hE]
    simp
  · rw [if_neg hA, if_neg hE]
    simp

/-- Claim C1 witness: the amended theorem applied to the concrete
three-way split scenario. -/
theorem c1_witness :
    tilesB 0 1000 [⟨0, 100, sentinel, 0, 10⟩, ⟨100, 200, sentinel, 7, 20⟩,
      ⟨300, 700, sentinel, 0, 10⟩] = true ∧
    (true = true → ∃ xs ys it mid,
      ([⟨0, 1000, sentinel, 0, 10⟩] : List KMemoryBlock) = xs ++ it :: ys ∧
      ([⟨0, 100, sentinel, 0, 10⟩, ⟨100, 200, sentinel, 7, 20⟩,
        ⟨300, 700, sentinel, 0, 10⟩] : List KMemoryBlock) = xs ++ mid ++ ys ∧
      tilesB it.address (it.address + it.size) mid = true ∧ mid.length ≤ 3) :=
  @c1_theorem (fun _ _ => true) [⟨0, 1000, sentinel, 0, 10⟩]
    [⟨0, 100, sentinel, 0, 10⟩, ⟨100, 200, sentinel, 7, 20⟩, ⟨300, 700, sentinel, 0, 10⟩]
    true 0 1000 100 200 20 7 0 (by decide) (by decide) (by decide) (by decide) (by decide)

/-- Claim C2: with a containing block `it` located, `Insert` returns
`false` exactly when the attributes differ from `old_attr`, or the block
does not reach `address + size - 1`, or the type cannot be derived; when
all three preconditions hold it returns `true`. -/
theorem c2_theorem {cd : Nat → Nat → Bool} {tree : List KMemoryBlock} {it : KMemoryBlock}
    {address size tid na oa : Nat}
    (hf : findContainingBlock tree address = some it)
    (hs : 0 < size) (hov : address + size ≤ W) :
    ((Insert cd tree address size tid na oa).map Prod.snd = some false ↔
      (it.attributes ≠ oa ∨ it.lastAddr < address + size - 1 ∨ ¬ cd it.type_id tid = true)) ∧
    ((Insert cd tree address size tid na oa).map Prod.snd = some true ↔
      (it.attributes = oa ∧ ¬ it.lastAddr < address + size - 1 ∧ cd it.type_id tid = true)) := by
  have hinslast : wsub (wadd address size) 1 = address + size - 1 := wlast_eq (by omega) hov
  by_cases h1 : it.attributes = oa
  · by_cases h2 : it.lastAddr < address + size - 1
    · have hval : Insert cd tree address size tid na oa = some (tree, false) := by
        simp only [Insert, hf, hinslast]
        rw [if_neg (not_not_intro h1), if_pos h2]
      rw [hval]
      exact ⟨by simp [h2], by simp [h2]⟩
    · by_cases h3 : cd it.type_id tid = true
      · have hval : (Insert cd tree address size tid na oa).map Prod.snd = some true := by
          simp only [Insert, hf, hinslast]
          rw [if_neg (not_not_intro h1), if_neg h2, if_neg (not_not_intro h3)]
          rfl
        rw [hval]
        exact ⟨by simp [h1, h2, h3], by simp [h1, h2, h3]⟩
      · have hval : Insert cd tree address size tid na oa = some (tree, false) := by
          simp only [Insert, hf, hinslast]
          rw [if_neg (not_not_intro h1), if_neg h2, if_pos (by simpa using h3)]
        rw [hval]
        exact ⟨by simp [h3], by simp [h3]⟩
  · have hval : Insert cd tree address size tid na oa = some (tree, false) := by
      simp only [Insert, hf, hinslast]
      rw [if_pos h1]
    rw [hval]
    exact ⟨by simp [h1], by simp [h1]⟩

/-- Claim C2 witness: the precondition characterisation at a concrete tree
and call. -/
theorem c2_witness :
    ((Insert (fun _ _ => true) [⟨0, 1000, sentinel, 0, 10⟩] 100 200 20 7 0).map Prod.snd
        = some false ↔
      ((⟨0, 1000, sentinel, 0, 10⟩ : KMemoryBlock).attributes ≠ 0 ∨
        (⟨0, 1000, sentinel, 0, 10⟩ : KMemoryBlock).lastAddr < 100 + 200 - 1 ∨
        ¬ (fun _ _ => true) (⟨0, 1000, sentinel, 0, 10⟩ : KMemoryBlock).type_id 20 = true)) ∧
    ((Insert (fun _ _ => true) [⟨0, 1000, sentinel, 0, 10⟩] 100 200 20 7 0).map Prod.snd
        = some true ↔
      ((⟨0, 1000, sentinel, 0, 10⟩ : KMemoryBlock).attributes = 0 ∧
        ¬ (⟨0, 1000, sentinel, 0, 10⟩ : KMemoryBlock).lastAddr < 100 + 200 - 1 ∧
        (fun _ _ => true) (⟨0, 1000, sentinel, 0, 10⟩ : KMemoryBlock).type_id 20 = true)) :=
  @c2_theorem (fun _ _ => true) [⟨0, 1000, sentinel, 0, 10⟩] ⟨0, 1000, sentinel, 0, 10⟩
    100 200 20 7 0 (by decide) (by decide) (by decide)

/-- Claim C3: whenever `Insert` returns `false`, the tree it hands back is
exactly the input tree — the three precondition checks all happen before
the erase and the reinsertions. -/
theorem c3_theorem {cd : Nat → Nat → Bool} {tree l' : List KMemoryBlock}
    {address size tid na oa : Nat}
    (h : Insert cd tree address size tid na oa = some (l', false)) : l' = tree :=
  Insert_false_unchanged h

/-- Claim C3 witness: a concrete failing call (old-attribute mismatch)
leaves the tree unchanged. -/
theorem c3_witness :
    ([⟨0, 1000, sentinel, 0, 10⟩] : List KMemoryBlock) = [⟨0, 1000, sentinel, 0, 10⟩] :=
  @c3_theorem (fun _ _ => true) [⟨0, 1000, sentinel, 0, 10⟩] [⟨0, 1000, sentinel, 0, 10⟩]
    100 200 20 7 99 (by decide)

/-- Claim C4 counterexample: the clause "a zero-length block is never
created" fails as stated: a call with `size = 0` passes every precondition
and creates a zero-length block. -/
theorem c4_counterexample :
    Insert (fun x y => x == y) [⟨0, 1000, sentinel, 0, 10⟩] 100 0 10 0 0 =
      some ([⟨0, 100, sentinel, 0, 10⟩, ⟨100, 900, sentinel, 0, 10⟩,
        ⟨100, 0, sentinel, 0, 10⟩], true) ∧
    ∃ b ∈ ([⟨0, 100, sentinel, 0, 10⟩, ⟨100, 900, sentinel, 0, 10⟩,
        ⟨100, 0, sentinel, 0, 10⟩] : List KMemoryBlock), b.size = 0 :=
  ⟨by decide, by decide⟩

/-- Claim C4 (amended): the concrete scenario holds (split into three, then
the second identical call fails on the attribute check); an `Insert` whose
region starts at the containing block start or ends at its end replaces
that block by at most two blocks; and for calls with `0 < size` no
zero-length block is ever created (for `size = 0` the new block itself is
zero-length, see the counterexample). -/
theorem c4_theorem :
    (Insert (fun _ _ => true) [⟨0, 1000, sentinel, 0, 10⟩] 100 200 20 7 0 =
        some ([⟨0, 100, sentinel, 0, 10⟩, ⟨100, 200, sentinel, 7, 20⟩,
          ⟨300, 700, sentinel, 0, 10⟩], true) ∧
      Insert (fun _ _ => true)
        [⟨0, 100, sentinel, 0, 10⟩, ⟨100, 200, sentinel, 7, 20⟩, ⟨300, 700, sentinel, 0, 10⟩]
        100 200 20 7 0 =
        some ([⟨0, 100, sentinel, 0, 10⟩, ⟨100, 200, sentinel, 7, 20⟩,
          ⟨300, 700, sentinel, 0, 10⟩], false)) ∧
    (∀ (cd : Nat → Nat → Bool) (tree l' : List KMemoryBlock) (it : KMemoryBlock)
        (lo hi address size tid na oa : Nat),
      tilesB lo hi tree = true → hi ≤ W → 0 < size → address + size ≤ W →
      findContainingBlock tree address = some it →
      Insert cd tree address size tid na oa = some (l', true) →
      (it.address = address ∨ it.address + it.size = address + size) →
      l'.length ≤ tree.length + 1) ∧
    (∀ (cd : Nat → Nat → Bool) (tree l' : List KMemoryBlock)
        (lo hi address size tid na oa : Nat),
      tilesB lo hi tree = true → hi ≤ W → 0 < size → address + size ≤ W →
      Insert cd tree address size tid na oa = some (l', true) →
      ∀ b ∈ l', 0 < b.size) := by
  refine ⟨⟨by decide, by decide⟩, ?_, ?_⟩
  · intro cd tree l' it lo hi address size tid na oa ht hW hs hov hf hins hedge
    obtain ⟨xs, ys, it', htree, hfind, htx, htys, hattr, hA_le, hfit, hSpos, hl'⟩ :=
      Insert_success_shape ht hW hs hov hins
    rw [hfind] at hf
    have heq : it' = it := Option.some.inj hf
    rw [heq] at htree hA_le hfit hSpos hl'
    rw [hl', htree]
    by_cases hA : it.address = address <;>
      by_cases hE : it.address + it.size = address + size
    · rw [if_pos hA, if_pos hE]
      simp only [List.length_append, List.length_cons, List.length_nil, List.nil_append]
      omega
    · rw [if_pos hA, if_neg hE]
      simp only [List.length_append, List.length_cons, List.length_nil, List.nil_append,
        List.singleton_append]
      omega
    · rw [if_neg hA, if_pos hE]
      simp only [List.length_append, List.length_cons, List.length_nil, List.nil_append,
        List.singleton_append]
      omega
    · rcases hedge with h | h
      · exact absurd h hA
      · exact absurd h hE
  · intro cd tree l' lo hi address size tid na oa ht hW hs hov hins b hb
    have htl := Insert_tilesB ht hW hs hov hins
    exact (tilesB_bounds htl b hb).2.2

/-- Claim C4 witness: the edge-split bound applied to the concrete
start-edge insert on a single block. -/
theorem c4_witness :
    ([⟨0, 200, sentinel, 7, 20⟩, ⟨200, 800, sentinel, 0, 10⟩] : List KMemoryBlock).length ≤
      ([⟨0, 1000, sentinel, 0, 10⟩] : List KMemoryBlock).length + 1 :=
  c4_theorem.2.1 (fun _ _ => true) [⟨0, 1000, sentinel, 0, 10⟩]
    [⟨0, 200, sentinel, 7, 20⟩, ⟨200, 800, sentinel, 0, 10⟩] ⟨0, 1000, sentinel, 0, 10⟩
    0 1000 0 200 20 7 0 (by decide) (by decide) (by decide) (by decide) (by decide)
    (by decide) (Or.inl rfl)

/-- Claim C5: pair addresses propagate linearly on a successful split —
the before-remainder keeps the original pair address (offset `0`), the new
block gets the pair shifted by `address - old_address`, the after-remainder
gets it shifted by `address + size - old_address`; a sentinel pair address
propagates as the sentinel to every piece. -/
theorem c5_theorem {cd : Nat → Nat → Bool} {tree l' : List KMemoryBlock} {it : KMemoryBlock}
    {lo hi address size tid na oa : Nat}
    (ht : tilesB lo hi tree = true) (hW : hi ≤ W) (hs : 0 < size)
    (hov : address + size ≤ W)
    (hf : findContainingBlock tree address = some it)
    (hp : it.pair_address ≠ sentinel → it.pair_address + it.size ≤ W)
    (hins : Insert cd tree address size tid na oa = some (l', true)) :
    ∃ xs ys, tree = xs ++ it :: ys ∧
      l' = xs ++
        ((if it.address = address then [] else
            [⟨it.address, address - it.address, it.pair_address, oa, it.type_id⟩]) ++
          (⟨address, size,
            (if it.pair_address = sentinel then sentinel
             else it.pair_address + (address - it.address)), na, tid⟩ : KMemoryBlock) ::
          (if it.address + it.size = address + size then [] else
            [⟨address + size, it.address + it.size - (address + size),
              (if it.pair_address = sentinel then sentinel
               else it.pair_address + (address + size - it.address)), oa, it.type_id⟩])) ++ ys := by
  obtain ⟨xs, ys, it', htree, hfind, htx, htys, hattr, hA_le, hfit, hSpos, hl'⟩ :=
    Insert_success_shape ht hW hs hov hins
  rw [hfind] at hf
  have heq : it' = it := Option.some.inj hf
  rw [heq] at htree hA_le hfit hSpos hl'
  refine ⟨xs, ys, htree, ?_⟩
  rw [hl']
  have hpair1 : (if it.pair_address ≠ sentinel then wadd it.pair_address (address - it.address)
      else it.pair_address) =
      (if it.pair_address = sentinel then sentinel
       else it.pair_address + (address - it.address)) := by
    by_cases hsent : it.pair_address = sentinel
    · simp [hsent]
    · rw [if_pos hsent, if_neg hsent]
      refine wadd_eq_of_lt ?_
      have := hp hsent
      omega
  by_cases hE : it.address + it.size = address + size
  · rw [if_pos hE, if_pos hE, hpair1]
  · rw [if_neg hE, if_neg hE, hpair1]
    have hpair2 : (if it.pair_address ≠ sentinel then
        wadd it.pair_address (address + size - it.address) else it.pair_address) =
        (if it.pair_address = sentinel then sentinel
         else it.pair_address + (address + size - it.address)) := by
      by_cases hsent : it.pair_address = sentinel
      · simp [hsent]
      · rw [if_pos hsent, if_neg hsent]
        refine wadd_eq_of_lt ?_
        have := hp hsent
        omega
    rw [hpair2]

/-- Claim C5 witness: the pair propagation theorem applied to a block with
a valid pair address `5000`, split at offsets `100` and `300`. -/
theorem c5_witness :
    ∃ xs ys, ([⟨0, 1000, 5000, 3, 10⟩] : List KMemoryBlock) =
        xs ++ (⟨0, 1000, 5000, 3, 10⟩ : KMemoryBlock) :: ys ∧
      ([⟨0, 100, 5000, 3, 10⟩, ⟨100, 200, 5100, 7, 20⟩,
        ⟨300, 700, 5300, 3, 10⟩] : List KMemoryBlock) = xs ++
        ((if (⟨0, 1000, 5000, 3, 10⟩ : KMemoryBlock).address = 100 then [] else
            [⟨(⟨0, 1000, 5000, 3, 10⟩ : KMemoryBlock).address,
              100 - (⟨0, 1000, 5000, 3, 10⟩ : KMemoryBlock).address,
              (⟨0, 1000, 5000, 3, 10⟩ : KMemoryBlock).pair_address, 3,
              (⟨0, 1000, 5000, 3, 10⟩ : KMemoryBlock).type_id⟩]) ++
          (⟨100, 200,
            (if (⟨0, 1000, 5000, 3, 10⟩ : KMemoryBlock).pair_address = sentinel then sentinel
             else (⟨0, 1000, 5000, 3, 10⟩ : KMemoryBlock).pair_address +
               (100 - (⟨0, 1000, 5000, 3, 10⟩ : KMemoryBlock).address)), 7, 20⟩ : KMemoryBlock) ::
          (if (⟨0, 1000, 5000, 3, 10⟩ : KMemoryBlock).address +
              (⟨0, 1000, 5000, 3, 10⟩ : KMemoryBlock).size = 100 + 200 then [] else
            [⟨100 + 200,
              (⟨0, 1000, 5000, 3, 10⟩ : KMemoryBlock).address +
                (⟨0, 1000, 5000, 3, 10⟩ : KMemoryBlock).size - (100 + 200),
              (if (⟨0, 1000, 5000, 3, 10⟩ : KMemoryBlock).pair_address = sentinel then sentinel
               else (⟨0, 1000, 5000, 3, 10⟩ : KMemoryBlock).pair_address +
                 (100 + 200 - (⟨0, 1000, 5000, 3, 10⟩ : KMemoryBlock).address)), 3,
              (⟨0, 1000, 5000, 3, 10⟩ : KMemoryBlock).type_id⟩])) ++ ys :=
  @c5_theorem (fun _ _ => true) [⟨0, 1000, 5000, 3, 10⟩]
    [⟨0, 100, 5000, 3, 10⟩, ⟨100, 200, 5100, 7, 20⟩, ⟨300, 700, 5300, 3, 10⟩]
    ⟨0, 1000, 5000, 3, 10⟩ 0 1000 100 200 20 7 3
    (by decide) (by decide) (by decide) (by decide) (by decide)
    (fun _ => by decide) (by decide)

/-- One iteration of the rejection-sampling loop of
`KMemoryBlockTree::GetRandomAlignedRegion`, as a function of the random
draw `r` returned by `KSystemControl::Init::GenerateRandomRange`
(an external collaborator).  `last_address` is the inclusive last address
of the derived extents computed before the loop.  `none` means the draw is
rejected and the loop continues; `some c` means the loop returns `c`. -/
def randomAlignedCandidate (tree : List KMemoryBlock)
    (size alignment type_id last_address r : Nat) : Option Nat :=
  let candidate := alignDown r alignment
  -- Ensure that the candidate does not overflow with the size.
  if ¬ (candidate < wadd candidate size) then none
  else
    let candidate_last := wsub (wadd candidate size) 1
    -- Ensure that the candidate fits within the region.
    if candidate_last > last_address then none
    else
      -- Locate the candidate block, and ensure it fits.
      match findContainingBlock tree candidate with
      | none => none
      | some candidate_block =>
        if candidate_last > candidate_block.lastAddr then none
        else
          -- Ensure that the block has the correct type id.
          if candidate_block.type_id ≠ type_id then none
          else some candidate

/-- `KMemoryBlockTree::GetRandomAlignedRegion(size, alignment, type_id)`,
modelled over an explicit stream of random draws: the loop returns the
first accepted candidate (the C++ loop is unbounded; a finite stream that
yields no acceptance is modelled as `none`). -/
def GetRandomAlignedRegion (tree : List KMemoryBlock)
    (size alignment type_id last_address : Nat) : List Nat → Option Nat
  | [] => none
  | r :: rs =>
    match randomAlignedCandidate tree size alignment type_id last_address r with
    | some c => some c
    | none => GetRandomAlignedRegion tree size alignment type_id last_address rs

theorem randomAlignedCandidate_spec {tree : List KMemoryBlock}
    {lo hi size alignment type_id last_address r c : Nat}
    (ht : tilesB lo hi tree = true) (hW : hi ≤ W) (hsize : size < W)
    (h : randomAlignedCandidate tree size alignment type_id last_address r = some c) :
    c % alignment = 0 ∧ 0 < size ∧ c + size < W ∧
    ∃ b, findContainingBlock tree c = some b ∧ b.type_id = type_id ∧
      b.address ≤ c ∧ c + size ≤ b.address + b.size := by
  simp only [randomAlignedCandidate] at h
  by_cases h1 : alignDown r alignment < wadd (alignDown r alignment) size
  swap
  · rw [if_pos h1] at h
    exact absurd h (by simp)
  rw [if_neg (not_not_intro h1)] at h
  have hcW : alignDown r alignment < W :=
    lt_of_lt_of_le h1 (le_of_lt (Nat.mod_lt _ W_pos))
  have hov : alignDown r alignment + size < W := by
    by_contra hge0
    push_neg at hge0
    have hm : wadd (alignDown r alignment) size = alignDown r alignment + size - W := by
      show (alignDown r alignment + size) % W = _
      rw [Nat.mod_eq_sub_mod hge0]
      exact Nat.mod_eq_of_lt (by omega)
    rw [hm] at h1
    omega
  have hpos : 0 < size := by
    have := h1
    rw [wadd_eq_of_lt hov] at this
    omega
  have hlast : wsub (wadd (alignDown r alignment) size) 1 =
      alignDown r alignment + size - 1 := wlast_eq (by omega) (le_of_lt hov)
  rw [hlast] at h
  by_cases h2 : alignDown r alignment + size - 1 > last_address
  · rw [if_pos h2] at h
    exact absurd h (by simp)
  rw [if_neg h2] at h
  cases hfb : findContainingBlock tree (alignDown r alignment) with
  | none => rw [hfb] at h; simp at h
  | some b =>
    rw [hfb] at h
    dsimp only at h
    by_cases h3 : alignDown r alignment + size - 1 > b.lastAddr
    · rw [if_pos h3] at h
      exact absurd h (by simp)
    rw [if_neg h3] at h
    by_cases h4 : b.type_id = type_id
    swap
    · rw [if_pos h4] at h
      exact absurd h (by simp)
    rw [if_neg (not_not_intro h4)] at h
    have hc : c = alignDown r alignment := (Option.some.inj h).symm
    subst hc
    have hbmem : b ∈ tree := List.mem_of_find?_eq_some hfb
    have hbw := tilesB_bounds ht b hbmem
    have hblast : b.lastAddr = b.address + b.size - 1 :=
      wlast_eq (by omega) (by omega)
    have hbpred := List.find?_some hfb
    simp only [Bool.and_eq_true, decide_eq_true_eq] at hbpred
    refine ⟨alignDown_mod r alignment, hpos, hov, b, hfb, h4, hbpred.1, ?_⟩
    rw [hblast] at h3
    omega

/-- Claim C6: every address returned by `GetRandomAlignedRegion` is
aligned, its region does not overflow the address width, and
`[c, c + size)` lies inside the single containing block, whose type is
exactly `type_id`. -/
theorem c6_theorem {tree : List KMemoryBlock}
    {lo hi size alignment type_id last_address c : Nat} {rs : List Nat}
    (ht : tilesB lo hi tree = true) (hW : hi ≤ W) (hsize : size < W)
    (h : GetRandomAlignedRegion tree size alignment type_id last_address rs = some c) :
    c % alignment = 0 ∧ 0 < size ∧ c + size < W ∧
    ∃ b, findContainingBlock tree c = some b ∧ b.type_id = type_id ∧
      b.address ≤ c ∧ c + size ≤ b.address + b.size := by
  induction rs with
  | nil => simp [GetRandomAlignedRegion] at h
  | cons r rs ih =>
    simp only [GetRandomAlignedRegion] at h
    cases hcand : randomAlignedCandidate tree size alignment type_id last_address r with
    | none =>
      rw [hcand] at h
      exact ih h
    | some c0 =>
      rw [hcand] at h
      have : c0 = c := Option.some.inj h
      subst this
      exact randomAlignedCandidate_spec ht hW hsize hcand

/-- Claim C6 witness: a concrete draw on a single-block tree. -/
theorem c6_witness :
    (0x120 : Nat) % 0x10 = 0 ∧ 0 < 0x100 ∧ 0x120 + 0x100 < W ∧
    ∃ b, findContainingBlock [⟨0, 0x1000, sentinel, 0, 7⟩] 0x120 = some b ∧
      b.type_id = 7 ∧ b.address ≤ 0x120 ∧ 0x120 + 0x100 ≤ b.address + b.size :=
  @c6_theorem [⟨0, 0x1000, sentinel, 0, 7⟩] 0 0x1000 0x100 0x10 7 0xFFF 0x120 [0x123]
    (by decide) (by decide) (by decide) (by decide)

/-- The static constant `s_linear_phys_to_virt_diff` set by
`KMemoryLayout::InitializeLinearMemoryBlockTrees`: the wrapping
`uintptr_t` difference `linear_virtual_start - aligned_linear_phys_start`. -/
def s_linear_phys_to_virt_diff (aligned_linear_phys_start linear_virtual_start : Nat) : Nat :=
  wsub linear_virtual_start aligned_linear_phys_start

/-- The static constant `s_linear_virt_to_phys_diff` set by
`KMemoryLayout::InitializeLinearMemoryBlockTrees`: the wrapping
`uintptr_t` difference `aligned_linear_phys_start - linear_virtual_start`. -/
def s_linear_virt_to_phys_diff (aligned_linear_phys_start linear_virtual_start : Nat) : Nat :=
  wsub aligned_linear_phys_start linear_virtual_start

/-- Modelled from the spec: the four-argument block `Create` used when
populating the derived linear trees constructs a block with no pair
address (the sentinel). -/
def createNoPair (address size attributes type_id : Nat) : KMemoryBlock :=
  ⟨address, size, sentinel, attributes, type_id⟩

/-- The tree-population loops of
`KMemoryLayout::InitializeLinearMemoryBlockTrees`: walk the source tree in
order, skip blocks not selected by `keep` (the physical loop keeps blocks
with the `KMemoryRegionAttr_LinearMapped` type attribute, the virtual loop
keeps blocks deriving from `KMemoryRegionType_Dram`; both predicates live
in headers outside the sources and are abstracted), and insert a pair-less
copy of every kept block into the derived tree `acc`. -/
def populateLinearTree (keep : KMemoryBlock → Bool) :
    List KMemoryBlock → List KMemoryBlock → List KMemoryBlock
  | acc, [] => acc
  | acc, b :: bs =>
    if ¬ keep b then populateLinearTree keep acc bs
    else populateLinearTree keep
      (treeInsert (createNoPair b.address b.size b.attributes b.type_id) acc) bs

/-- `KMemoryLayout::InitializeLinearMemoryBlockTrees`: sets the two static
offset constants from the linear-mapping pair and populates the two
derived linear trees from the physical and virtual trees. -/
def InitializeLinearMemoryBlockTrees (hasLinearAttr isDerivedFromDram : KMemoryBlock → Bool)
    (physTree virtTree : List KMemoryBlock)
    (aligned_linear_phys_start linear_virtual_start : Nat) :
    (Nat × Nat) × List KMemoryBlock × List KMemoryBlock :=
  ((s_linear_phys_to_virt_diff aligned_linear_phys_start linear_virtual_start,
    s_linear_virt_to_phys_diff aligned_linear_phys_start linear_virtual_start),
   populateLinearTree hasLinearAttr [] physTree,
   populateLinearTree isDerivedFromDram [] virtTree)

/-- Claim C7: the two offset constants set by
`InitializeLinearMemoryBlockTrees` are additive inverses modulo the
address width, so translating an address physical-to-virtual and then
virtual-to-physical is the identity. -/
theorem c7_theorem (aligned_linear_phys_start linear_virtual_start a : Nat)
    (hp : aligned_linear_phys_start < W) (hv : linear_virtual_start < W) (ha : a < W) :
    wadd (s_linear_phys_to_virt_diff aligned_linear_phys_start linear_virtual_start)
      (s_linear_virt_to_phys_diff aligned_linear_phys_start linear_virtual_start) = 0 ∧
    wadd (wadd a (s_linear_phys_to_virt_diff aligned_linear_phys_start linear_virtual_start))
      (s_linear_virt_to_phys_diff aligned_linear_phys_start linear_virtual_start) = a := by
  have hpm : aligned_linear_phys_start % W = aligned_linear_phys_start := Nat.mod_eq_of_lt hp
  have hvm : linear_virtual_start % W = linear_virtual_start := Nat.mod_eq_of_lt hv
  have hsum : (linear_virtual_start + (W - aligned_linear_phys_start)) +
      (aligned_linear_phys_start + (W - linear_virtual_start)) = W + W := by omega
  have hinv : wadd (s_linear_phys_to_virt_diff aligned_linear_phys_start linear_virtual_start)
      (s_linear_virt_to_phys_diff aligned_linear_phys_start linear_virtual_start) = 0 := by
    rw [s_linear_phys_to_virt_diff, s_linear_virt_to_phys_diff, wadd, wsub, wsub, hpm, hvm,
      ← Nat.add_mod, hsum, Nat.add_mod_left]
    exact Nat.mod_self W
  refine ⟨hinv, ?_⟩
  have h0 : (s_linear_phys_to_virt_diff aligned_linear_phys_start linear_virtual_start +
      s_linear_virt_to_phys_diff aligned_linear_phys_start linear_virtual_start) % W = 0 := hinv
  show ((a + s_linear_phys_to_virt_diff aligned_linear_phys_start linear_virtual_start) % W +
      s_linear_virt_to_phys_diff aligned_linear_phys_start linear_virtual_start) % W = a
  rw [Nat.mod_add_mod, Nat.add_assoc, Nat.add_mod, h0, Nat.add_zero,
    Nat.mod_eq_of_lt ha, Nat.mod_eq_of_lt ha]

/-- Claim C7 witness: the round trip at concrete addresses. -/
theorem c7_witness :
    wadd (s_linear_phys_to_virt_diff 0x1000 0x80001000)
      (s_linear_virt_to_phys_diff 0x1000 0x80001000) = 0 ∧
    wadd (wadd 0x123 (s_linear_phys_to_virt_diff 0x1000 0x80001000))
      (s_linear_virt_to_phys_diff 0x1000 0x80001000) = 0x123 :=
  c7_theorem 0x1000 0x80001000 0x123 (by decide) (by decide) (by decide)

theorem mem_populateLinearTree {keep : KMemoryBlock → Bool} :
    ∀ {l acc : List KMemoryBlock} {c : KMemoryBlock},
      c ∈ populateLinearTree keep acc l →
      c ∈ acc ∨ ∃ b ∈ l, keep b = true ∧
        c = createNoPair b.address b.size b.attributes b.type_id := by
  intro l
  induction l with
  | nil =>
    intro acc c h
    exact Or.inl (by simpa [populateLinearTree] using h)
  | cons b bs ih =>
    intro acc c h
    rw [populateLinearTree] at h
    by_cases hk : keep b = true
    · rw [if_neg (by simp [hk])] at h
      rcases ih h with hacc | ⟨b0, hb0, hkb0, hc⟩
      · rcases mem_treeInsert.mp hacc with h1 | h1
        · exact Or.inr ⟨b, by simp, hk, h1⟩
        · exact Or.inl h1
      · exact Or.inr ⟨b0, by simp [hb0], hkb0, hc⟩
    · rw [if_pos (by simpa using hk)] at h
      rcases ih h with hacc | ⟨b0, hb0, hkb0, hc⟩
      · exact Or.inl hacc
      · exact Or.inr ⟨b0, by simp [hb0], hkb0, hc⟩

/-- Claim C10: every block of the two derived linear trees built by
`InitializeLinearMemoryBlockTrees` is a copy of a selected source block
carrying its address, size, attributes and type — but never its pair
address: every copy is created with the sentinel pair address. -/
theorem c10_theorem {hasLinearAttr isDerivedFromDram : KMemoryBlock → Bool}
    {physTree virtTree : List KMemoryBlock} {ps vs : Nat} :
    (∀ c ∈ (InitializeLinearMemoryBlockTrees hasLinearAttr isDerivedFromDram
        physTree virtTree ps vs).2.1,
      c.pair_address = sentinel ∧ ∃ b ∈ physTree, hasLinearAttr b = true ∧
        c.address = b.address ∧ c.size = b.size ∧ c.attributes = b.attributes ∧
        c.type_id = b.type_id) ∧
    (∀ c ∈ (InitializeLinearMemoryBlockTrees hasLinearAttr isDerivedFromDram
        physTree virtTree ps vs).2.2,
      c.pair_address = sentinel ∧ ∃ b ∈ virtTree, isDerivedFromDram b = true ∧
        c.address = b.address ∧ c.size = b.size ∧ c.attributes = b.attributes ∧
        c.type_id = b.type_id) := by
  constructor <;> intro c hc
  · rcases mem_populateLinearTree hc with h | ⟨b, hb, hk, hceq⟩
    · simp at h
    · subst hceq
      exact ⟨rfl, b, hb, hk, rfl, rfl, rfl, rfl⟩
  · rcases mem_populateLinearTree hc with h | ⟨b, hb, hk, hceq⟩
    · simp at h
    · subst hceq
      exact ⟨rfl, b, hb, hk, rfl, rfl, rfl, rfl⟩

/-- Claim C10 witness: a physical block with a valid pair address `777` is
copied into the physical-linear tree with the sentinel pair address. -/
theorem c10_witness :
    (⟨0, 100, sentinel, 5, 3⟩ : KMemoryBlock).pair_address = sentinel ∧
    ∃ b ∈ ([⟨0, 100, 777, 5, 3⟩] : List KMemoryBlock), (fun _ => true) b = true ∧
      (⟨0, 100, sentinel, 5, 3⟩ : KMemoryBlock).address = b.address ∧
      (⟨0, 100, sentinel, 5, 3⟩ : KMemoryBlock).size = b.size ∧
      (⟨0, 100, sentinel, 5, 3⟩ : KMemoryBlock).attributes = b.attributes ∧
      (⟨0, 100, sentinel, 5, 3⟩ : KMemoryBlock).type_id = b.type_id :=
  (@c10_theorem (fun _ => true) (fun _ => true) [⟨0, 100, 777, 5, 3⟩] [] 0 0).1
    ⟨0, 100, sentinel, 5, 3⟩ (by decide)

/-- `CarveoutAlignment` from the source `init` namespace: `0x20000`. -/
def CarveoutAlignment : Nat := 0x20000

/-- `CarveoutSizeMax` from the source `init` namespace:
`512_MB - CarveoutAlignment`. -/
def CarveoutSizeMax : Nat := 0x20000000 - CarveoutAlignment

/-- Modelled from the spec: the memory-region type tags used by the pool
partition builder live in headers outside the sources; they are
represented by arbitrary pairwise-distinct codes. -/
def KMemoryRegionType_DramApplicationPool : Nat := 1

def KMemoryRegionType_DramAppletPool : Nat := 2

def KMemoryRegionType_DramSystemNonSecurePool : Nat := 3

def KMemoryRegionType_DramMetadataPool : Nat := 4

def KMemoryRegionType_DramSystemPool : Nat := 5

def KMemoryRegionType_VirtualDramApplicationPool : Nat := 11

def KMemoryRegionType_VirtualDramAppletPool : Nat := 12

def KMemoryRegionType_VirtualDramSystemNonSecurePool : Nat := 13

def KMemoryRegionType_VirtualDramMetadataPool : Nat := 14

def KMemoryRegionType_VirtualDramSystemPool : Nat := 15

/-- One pool-partition insertion performed by
`init::InsertPoolPartitionBlockIntoBothTrees`: the physical range, the two
region types, and the attribute tag used for both tree inserts. -/
structure PoolInsertion where
  start : Nat
  size : Nat
  phys_type : Nat
  virt_type : Nat
  attr : Nat
  deriving DecidableEq, Repr

/-- `init::InsertPoolPartitionBlockIntoBothTrees(start, size, phys_type,
virt_type, cur_attr)` from the source: allocates `attr = cur_attr++` and
performs the two asserted `Insert` calls — into the physical tree at
`start` and into the virtual tree at the physical block pair address —
both with that same `attr`.  The tree mutation itself happens through
header state; the model records the emitted insertion together with the
updated counter. -/
def InsertPoolPartitionBlockIntoBothTrees (start size phys_type virt_type cur_attr : Nat) :
    PoolInsertion × Nat :=
  (⟨start, size, phys_type, virt_type, cur_attr⟩, cur_attr + 1)

/-- `init::SetupPoolPartitionMemoryBlocks` from the source.  The external
queries are parameters: `dram_first_address` / `dram_end_address` are the
DRAM derived-region extents, the three pool sizes come from
`KSystemControl`, `kernel_dram_start` is the first `DramKernel` block
address (asserted aligned to `CarveoutAlignment`), `pool_partitions_start`
the first `DramPoolPartition` block address, and
`calculateMetadataOverheadSize` is the external metadata-size calculator.
Returns the pool insertions in the order the source performs them. -/
def SetupPoolPartitionMemoryBlocks (dram_first_address dram_end_address
    application_pool_size applet_pool_size nonsecure_system_pool_min_size
    kernel_dram_start pool_partitions_start : Nat)
    (calculateMetadataOverheadSize : Nat → Nat) : List PoolInsertion :=
  -- Decide on starting addresses for our pools.
  let application_pool_start := dram_end_address - application_pool_size
  let applet_pool_start := application_pool_start - applet_pool_size
  let nonsecure_system_pool_start := min (kernel_dram_start + CarveoutSizeMax)
    (alignDown (applet_pool_start - nonsecure_system_pool_min_size) CarveoutAlignment)
  let nonsecure_system_pool_size := applet_pool_start - nonsecure_system_pool_start
  -- We want to arrange application pool depending on where the middle of dram is.
  let dram_midpoint := (dram_first_address + dram_end_address) / 2
  let app : List PoolInsertion × Nat × Nat :=
    if dram_end_address ≤ dram_midpoint ∨ dram_midpoint ≤ application_pool_start then
      let (i1, a1) := InsertPoolPartitionBlockIntoBothTrees application_pool_start
        application_pool_size KMemoryRegionType_DramApplicationPool
        KMemoryRegionType_VirtualDramApplicationPool 0
      ([i1], a1, calculateMetadataOverheadSize application_pool_size)
    else
      let first_application_pool_size := dram_midpoint - application_pool_start
      let second_application_pool_size :=
        application_pool_start + application_pool_size - dram_midpoint
      let (i1, a1) := InsertPoolPartitionBlockIntoBothTrees application_pool_start
        first_application_pool_size KMemoryRegionType_DramApplicationPool
        KMemoryRegionType_VirtualDramApplicationPool 0
      let (i2, a2) := InsertPoolPartitionBlockIntoBothTrees dram_midpoint
        second_application_pool_size KMemoryRegionType_DramApplicationPool
        KMemoryRegionType_VirtualDramApplicationPool a1
      ([i1, i2], a2, calculateMetadataOverheadSize first_application_pool_size +
        calculateMetadataOverheadSize second_application_pool_size)
  -- Insert the applet pool.
  let (appletIn, attr2) := InsertPoolPartitionBlockIntoBothTrees applet_pool_start
    applet_pool_size KMemoryRegionType_DramAppletPool
    KMemoryRegionType_VirtualDramAppletPool app.2.1
  let overhead2 := app.2.2 + calculateMetadataOverheadSize applet_pool_size
  -- Insert the nonsecure system pool.
  let (nonsecureIn, attr3) := InsertPoolPartitionBlockIntoBothTrees
    nonsecure_system_pool_start nonsecure_system_pool_size
    KMemoryRegionType_DramSystemNonSecurePool
    KMemoryRegionType_VirtualDramSystemNonSecurePool attr2
  let overhead3 := overhead2 + calculateMetadataOverheadSize nonsecure_system_pool_size
  -- Insert the metadata pool (note: a fresh counter starting at 0).
  let total_overhead_size := overhead3 +
    calculateMetadataOverheadSize ((nonsecure_system_pool_start - pool_partitions_start) - overhead3)
  let metadata_pool_start := nonsecure_system_pool_start - total_overhead_size
  let metadata_pool_size := total_overhead_size
  let (metadataIn, _) := InsertPoolPartitionBlockIntoBothTrees metadata_pool_start
    metadata_pool_size KMemoryRegionType_DramMetadataPool
    KMemoryRegionType_VirtualDramMetadataPool 0
  -- Insert the system pool.
  let system_pool_size := metadata_pool_start - pool_partitions_start
  let (systemIn, _) := InsertPoolPartitionBlockIntoBothTrees pool_partitions_start
    system_pool_size KMemoryRegionType_DramSystemPool
    KMemoryRegionType_VirtualDramSystemPool attr3
  app.1 ++ [appletIn, nonsecureIn, metadataIn, systemIn]

/-- The non-secure-system pool start in the C8 scenario: DRAM
`[0, 2_GB)`, application pool `512_MB`, applet pool `256_MB`, minimum
non-secure size `32_MB`. -/
def c8_nonsecure_start (kernel_dram_start : Nat) : Nat :=
  min (kernel_dram_start + CarveoutSizeMax) 0x4E000000

/-- The total metadata overhead accumulated in the C8 scenario. -/
def c8_total_overhead (kernel_dram_start : Nat) (overhead : Nat → Nat) : Nat :=
  let t := overhead 0x20000000 + overhead 0x10000000 +
    overhead (0x50000000 - c8_nonsecure_start kernel_dram_start)
  t + overhead (c8_nonsecure_start kernel_dram_start - t)

/-- Claim C8: in the scenario DRAM `[0, 2_GB)` with application pool
`512_MB`, applet pool `256_MB` and non-secure-system minimum `32_MB`
(pool partitions starting at the DRAM base), for every metadata-overhead
calculator whose accumulated overhead fits below the non-secure-system
pool, `SetupPoolPartitionMemoryBlocks` produces exactly the five pool
regions — ordered system, metadata, non-secure-system, applet,
application from low to high address — each starting where the previous
one ends, covering `[0, 2_GB)` with sizes summing to the DRAM extent. -/
theorem c8_theorem (kernel_dram_start : Nat) (overhead : Nat → Nat)
    (hb : c8_total_overhead kernel_dram_start overhead ≤ c8_nonsecure_start kernel_dram_start) :
    SetupPoolPartitionMemoryBlocks 0 0x80000000 0x20000000 0x10000000 0x2000000
        kernel_dram_start 0 overhead =
      [⟨0x60000000, 0x20000000, KMemoryRegionType_DramApplicationPool,
          KMemoryRegionType_VirtualDramApplicationPool, 0⟩,
        ⟨0x50000000, 0x10000000, KMemoryRegionType_DramAppletPool,
          KMemoryRegionType_VirtualDramAppletPool, 1⟩,
        ⟨c8_nonsecure_start kernel_dram_start,
          0x50000000 - c8_nonsecure_start kernel_dram_start,
          KMemoryRegionType_DramSystemNonSecurePool,
          KMemoryRegionType_VirtualDramSystemNonSecurePool, 2⟩,
        ⟨c8_nonsecure_start kernel_dram_start - c8_total_overhead kernel_dram_start overhead,
          c8_total_overhead kernel_dram_start overhead,
          KMemoryRegionType_DramMetadataPool, KMemoryRegionType_VirtualDramMetadataPool, 0⟩,
        ⟨0, c8_nonsecure_start kernel_dram_start - c8_total_overhead kernel_dram_start overhead,
          KMemoryRegionType_DramSystemPool, KMemoryRegionType_VirtualDramSystemPool, 3⟩] ∧
    (c8_nonsecure_start kernel_dram_start - c8_total_overhead kernel_dram_start overhead) +
        c8_total_overhead kernel_dram_start overhead =
      c8_nonsecure_start kernel_dram_start ∧
    c8_nonsecure_start kernel_dram_start +
        (0x50000000 - c8_nonsecure_start kernel_dram_start) = 0x50000000 ∧
    (0x50000000 : Nat) + 0x10000000 = 0x60000000 ∧
    (0x60000000 : Nat) + 0x20000000 = 0x80000000 ∧
    (c8_nonsecure_start kernel_dram_start - c8_total_overhead kernel_dram_start overhead) +
        c8_total_overhead kernel_dram_start overhead +
        (0x50000000 - c8_nonsecure_start kernel_dram_start) +
        0x10000000 + 0x20000000 = 0x80000000 := by
  have husp : c8_nonsecure_start kernel_dram_start ≤ 0x4E000000 := Nat.min_le_right _ _
  refine ⟨?_, by omega, by omega, by norm_num, by norm_num, by omega⟩
  simp only [SetupPoolPartitionMemoryBlocks, InsertPoolPartitionBlockIntoBothTrees,
    c8_nonsecure_start, c8_total_overhead]
  norm_num [CarveoutSizeMax, CarveoutAlignment, alignDown]

/-- Claim C8 witness: the scenario with a constant `0x1000` metadata
overhead calculator. -/
theorem c8_witness :
    SetupPoolPartitionMemoryBlocks 0 0x80000000 0x20000000 0x10000000 0x2000000
        0 0 (fun _ => 0x1000) =
      [⟨0x60000000, 0x20000000, KMemoryRegionType_DramApplicationPool,
          KMemoryRegionType_VirtualDramApplicationPool, 0⟩,
        ⟨0x50000000, 0x10000000, KMemoryRegionType_DramAppletPool,
          KMemoryRegionType_VirtualDramAppletPool, 1⟩,
        ⟨c8_nonsecure_start 0, 0x50000000 - c8_nonsecure_start 0,
          KMemoryRegionType_DramSystemNonSecurePool,
          KMemoryRegionType_VirtualDramSystemNonSecurePool, 2⟩,
        ⟨c8_nonsecure_start 0 - c8_total_overhead 0 (fun _ => 0x1000),
          c8_total_overhead 0 (fun _ => 0x1000),
          KMemoryRegionType_DramMetadataPool, KMemoryRegionType_VirtualDramMetadataPool, 0⟩,
        ⟨0, c8_nonsecure_start 0 - c8_total_overhead 0 (fun _ => 0x1000),
          KMemoryRegionType_DramSystemPool, KMemoryRegionType_VirtualDramSystemPool, 3⟩] ∧
    (c8_nonsecure_start 0 - c8_total_overhead 0 (fun _ => 0x1000)) +
        c8_total_overhead 0 (fun _ => 0x1000) = c8_nonsecure_start 0 ∧
    c8_nonsecure_start 0 + (0x50000000 - c8_nonsecure_start 0) = 0x50000000 ∧
    (0x50000000 : Nat) + 0x10000000 = 0x60000000 ∧
    (0x60000000 : Nat) + 0x20000000 = 0x80000000 ∧
    (c8_nonsecure_start 0 - c8_total_overhead 0 (fun _ => 0x1000)) +
        c8_total_overhead 0 (fun _ => 0x1000) +
        (0x50000000 - c8_nonsecure_start 0) + 0x10000000 + 0x20000000 = 0x80000000 :=
  c8_theorem 0 (fun _ => 0x1000) (by decide)

/-- Claim C9 counterexample: the attribute tags of the pool insertions in
one run are not pairwise distinct — the metadata pool insertion uses a
fresh counter that restarts at `0`, colliding with the first application
pool insertion tag. -/
theorem c9_counterexample :
    (SetupPoolPartitionMemoryBlocks 0 0x80000000 0x20000000 0x10000000 0x2000000
        0 0 (fun _ => 0)).map PoolInsertion.attr = [0, 1, 2, 0, 3] ∧
    ¬ List.Pairwise (fun a b => a ≠ b) ([0, 1, 2, 0, 3] : List Nat) :=
  ⟨by decide, by decide⟩

/-- Claim C9 (amended): the insertions drawn from the shared
`cur_pool_attr` counter (application — once or twice —, applet,
non-secure-system, system) have pairwise distinct tags; the metadata pool
insertion draws from a separate counter and always uses tag `0`, the same
tag as the first application pool insertion; each insertion uses its
single tag for both the physical and the virtual tree. -/
theorem c9_theorem (dram_first_address dram_end_address application_pool_size
    applet_pool_size nonsecure_system_pool_min_size kernel_dram_start
    pool_partitions_start : Nat) (overhead : Nat → Nat) :
    List.Pairwise (fun a b => a ≠ b)
      (((SetupPoolPartitionMemoryBlocks dram_first_address dram_end_address
            application_pool_size applet_pool_size nonsecure_system_pool_min_size
            kernel_dram_start pool_partitions_start overhead).filter
          (fun e => e.phys_type ≠ KMemoryRegionType_DramMetadataPool)).map
        PoolInsertion.attr) ∧
    (∀ e ∈ SetupPoolPartitionMemoryBlocks dram_first_address dram_end_address
        application_pool_size applet_pool_size nonsecure_system_pool_min_size
        kernel_dram_start pool_partitions_start overhead,
      e.phys_type = KMemoryRegionType_DramMetadataPool → e.attr = 0) ∧
    (∃ e ∈ SetupPoolPartitionMemoryBlocks dram_first_address dram_end_address
        application_pool_size applet_pool_size nonsecure_system_pool_min_size
        kernel_dram_start pool_partitions_start overhead,
      e.phys_type = KMemoryRegionType_DramApplicationPool ∧ e.attr = 0) := by
  by_cases hc : dram_end_address ≤ (dram_first_address + dram_end_address) / 2 ∨
      (dram_first_address + dram_end_address) / 2 ≤ dram_end_address - application_pool_size
  · refine ⟨?_, ?_, ?_⟩ <;>
      simp [SetupPoolPartitionMemoryBlocks, InsertPoolPartitionBlockIntoBothTrees, hc,
        KMemoryRegionType_DramApplicationPool, KMemoryRegionType_DramAppletPool,
        KMemoryRegionType_DramSystemNonSecurePool, KMemoryRegionType_DramMetadataPool,
        KMemoryRegionType_DramSystemPool, List.pairwise_cons]
  · refine ⟨?_, ?_, ?_⟩ <;>
      simp [SetupPoolPartitionMemoryBlocks, InsertPoolPartitionBlockIntoBothTrees, hc,
        KMemoryRegionType_DramApplicationPool, KMemoryRegionType_DramAppletPool,
        KMemoryRegionType_DramSystemNonSecurePool, KMemoryRegionType_DramMetadataPool,
        KMemoryRegionType_DramSystemPool, List.pairwise_cons]

/-- Claim C9 witness: the amended theorem applied to the concrete
scenario run — its metadata insertion indeed carries tag 0. -/
theorem c9_witness :
    (⟨0x1FFE0000, 0, KMemoryRegionType_DramMetadataPool,
        KMemoryRegionType_VirtualDramMetadataPool, 0⟩ : PoolInsertion).attr = 0 :=
  (c9_theorem 0 0x80000000 0x20000000 0x10000000 0x2000000 0 0 (fun _ => 0)).2.1
    ⟨0x1FFE0000, 0, KMemoryRegionType_DramMetadataPool,
      KMemoryRegionType_VirtualDramMetadataPool, 0⟩ (by decide) (by decide)

end AmsKern







